import Mathlib

/-!
Verification of the lock-free utilities repository (NTRINGB ring buffer and
NTARC atomic shared pointer), via a shallow embedding of the C sources.

Modelling conventions:
* The Windows `LONG` / `LONG64` machine integers are modelled as mathematical
  integers (`Int`).  The specification treats the sequence arithmetic as exact
  (wrap-around at 2^31 is explicitly tolerated only below the participant
  bound), so overflow is immaterial for the claims settled here.
* Pointers are modelled as integer addresses.  The control blocks reachable
  from `NTARC` values live on an explicit heap `Int → NTARC_CONTROL_BLOCK`.
* The user-supplied destructor `pfn_destroy` is an external callback; its
  behaviour is not part of this repository, so the model records each
  invocation (callee and first argument) in a log instead of running it.
* Spin loops (`while (...available... < 1) { MemoryBarrier(); }` and CAS retry
  loops) are given their interference-free semantics: a loop whose exit
  condition is false and whose body changes no state would spin forever, which
  the sequential model renders as `none`.  The concurrent models further below
  instead treat each loop iteration as one atomic step.
-/

/-! ## Ring buffer: data model (ntringb.h) -/

/-- The `NTRINGB` control structure: four watermarks and the capacity. -/
structure NTRINGB where
  next_write_pos : Int
  last_write_pos : Int
  next_read_pos : Int
  last_read_pos : Int
  pow2_buffer_count : Int
  deriving DecidableEq, Repr

/-- The per-thread `NTRINGB_POS` stream cursor.  The source stores a pointer
`p_ringb` to the shared ring; the model passes the ring state explicitly to
every operation, so only `current_pos` is kept here. -/
structure NTRINGB_POS where
  current_pos : Int
  deriving DecidableEq, Repr

/-- `ntringb_init`: all four watermarks start at -1; the capacity is stored. -/
def ntringb_init (pow2_buffer_count : Int) : NTRINGB :=
  { next_write_pos := -1
    last_write_pos := -1
    next_read_pos := -1
    last_read_pos := -1
    pow2_buffer_count := pow2_buffer_count }

/-- `ntringb_pos_init`: a fresh cursor with `current_pos = -1`. -/
def ntringb_pos_init : NTRINGB_POS :=
  { current_pos := -1 }

/-- `ntringb_available_write`:
`pow2_buffer_count + last_read_pos - current_pos + 1`. -/
def ntringb_available_write (r : NTRINGB) (c : NTRINGB_POS) : Int :=
  r.pow2_buffer_count + r.last_read_pos - c.current_pos + 1

/-- `ntringb_available_read`: `last_write_pos - current_pos + 1`. -/
def ntringb_available_read (r : NTRINGB) (c : NTRINGB_POS) : Int :=
  r.last_write_pos - c.current_pos + 1

/-- `ntringb_begin_write`: claim the next sequence number by incrementing
`next_write_pos`, then spin until one space is available, then return the
claimed position masked with `pow2_buffer_count - 1`.  In the absence of
interference the spin condition never changes, so a claim without available
space diverges (`none`). -/
def ntringb_begin_write (r : NTRINGB) (c : NTRINGB_POS) :
    Option (NTRINGB × NTRINGB_POS × Int) :=
  let r1 := { r with next_write_pos := r.next_write_pos + 1 }
  let c1 : NTRINGB_POS := { current_pos := r1.next_write_pos }
  if 1 ≤ ntringb_available_write r1 c1 then
    some (r1, c1, Int.land c1.current_pos (r1.pow2_buffer_count - 1))
  else
    none

/-- `ntringb_begin_read`: symmetric to `ntringb_begin_write` on the read side. -/
def ntringb_begin_read (r : NTRINGB) (c : NTRINGB_POS) :
    Option (NTRINGB × NTRINGB_POS × Int) :=
  let r1 := { r with next_read_pos := r.next_read_pos + 1 }
  let c1 : NTRINGB_POS := { current_pos := r1.next_read_pos }
  if 1 ≤ ntringb_available_read r1 c1 then
    some (r1, c1, Int.land c1.current_pos (r1.pow2_buffer_count - 1))
  else
    none

/-- One `InterlockedCompareExchange` on a 32-bit field: returns the stored
value after the call and the previously stored value (the comparand result). -/
def interlockedCompareExchange (current newValue expected : Int) : Int × Int :=
  if current = expected then (newValue, current) else (current, current)

/-- `ntringb_poll_commit_write`: one CAS attempt moving `last_write_pos` from
`current_pos - 1` to `current_pos`; returns the updated ring and whether the
CAS succeeded. -/
def ntringb_poll_commit_write (r : NTRINGB) (c : NTRINGB_POS) : NTRINGB × Bool :=
  let last_write_pos := c.current_pos - 1
  let cas := interlockedCompareExchange r.last_write_pos (last_write_pos + 1) last_write_pos
  ({ r with last_write_pos := cas.1 }, decide (last_write_pos = cas.2))

/-- `ntringb_poll_commit_read`: one CAS attempt moving `last_read_pos` from
`current_pos - 1` to `current_pos`. -/
def ntringb_poll_commit_read (r : NTRINGB) (c : NTRINGB_POS) : NTRINGB × Bool :=
  let last_read_pos := c.current_pos - 1
  let cas := interlockedCompareExchange r.last_read_pos (last_read_pos + 1) last_read_pos
  ({ r with last_read_pos := cas.1 }, decide (last_read_pos = cas.2))

/-- `ntringb_commit_write`: the source retries the CAS until it succeeds.  A
failed attempt leaves the state unchanged, so without interference the loop
either succeeds at once or spins forever (`none`). -/
def ntringb_commit_write (r : NTRINGB) (c : NTRINGB_POS) : Option NTRINGB :=
  match ntringb_poll_commit_write r c with
  | (r1, true) => some r1
  | (_, false) => none

/-- `ntringb_commit_read`: consumer-side commit loop, symmetric to
`ntringb_commit_write`. -/
def ntringb_commit_read (r : NTRINGB) (c : NTRINGB_POS) : Option NTRINGB :=
  match ntringb_poll_commit_read r c with
  | (r1, true) => some r1
  | (_, false) => none

/-- `ntringb_poll_begin_write`: claim the next producer sequence number and
return the masked slot index immediately, without waiting for space. -/
def ntringb_poll_begin_write (r : NTRINGB) (c : NTRINGB_POS) :
    NTRINGB × NTRINGB_POS × Int :=
  let r1 := { r with next_write_pos := r.next_write_pos + 1 }
  let c1 : NTRINGB_POS := { current_pos := r1.next_write_pos }
  (r1, c1, Int.land c1.current_pos (r1.pow2_buffer_count - 1))

/-- `ntringb_poll_begin_read`: claim the next consumer sequence number and
return the masked slot index immediately, without waiting for data. -/
def ntringb_poll_begin_read (r : NTRINGB) (c : NTRINGB_POS) :
    NTRINGB × NTRINGB_POS × Int :=
  let r1 := { r with next_read_pos := r.next_read_pos + 1 }
  let c1 : NTRINGB_POS := { current_pos := r1.next_read_pos }
  (r1, c1, Int.land c1.current_pos (r1.pow2_buffer_count - 1))

/-- `ntringb_poll_write_ready`: fence, read the availability, return whether
it is positive.  The body only reads, so ring and cursor come back unchanged. -/
def ntringb_poll_write_ready (r : NTRINGB) (c : NTRINGB_POS) :
    NTRINGB × NTRINGB_POS × Bool :=
  (r, c, decide (0 < ntringb_available_write r c))

/-- `ntringb_poll_read_ready`: fence, read the availability, return whether it
is positive. -/
def ntringb_poll_read_ready (r : NTRINGB) (c : NTRINGB_POS) :
    NTRINGB × NTRINGB_POS × Bool :=
  (r, c, decide (0 < ntringb_available_read r c))

/-! ## Atomic shared pointer: data model (ntarc.h) -/

/-- The `NTARC` pair: `p_control_block` and `p_data`, both 64-bit pointer
values. -/
structure NTARC where
  p_control_block : Int
  p_data : Int
  deriving DecidableEq, Repr

/-- The `NTARC_CONTROL_BLOCK`: reference count, destructor context pointer and
destructor function pointer. -/
structure NTARC_CONTROL_BLOCK where
  reference_count : Int
  p_destroy_context : Int
  pfn_destroy : Int
  deriving DecidableEq, Repr

/-- A pointer-typed argument as passed to the user destructor.  The source can
pass either a plain pointer value or the address of the `p_destroy_context`
field of a control block (`NTARC_PDESTROY_CONTEXT` takes the address of that
field).  A field address inside a live control block is a distinct object from
any caller-supplied context value, so the two shapes are kept apart. -/
inductive PtrArg where
  | value (p : Int)
  | addr_destroy_context (cbAddr : Int)
  deriving DecidableEq, Repr

/-- One recorded invocation of a user destructor: the function pointer that
was called and the first argument it received. -/
structure DestroyCall where
  pfn : Int
  arg1 : PtrArg
  deriving DecidableEq, Repr

/-- The mutable context of the ARC operations: the heap of control blocks and
the log of destructor invocations. -/
structure ArcState where
  heap : Int → NTARC_CONTROL_BLOCK
  calls : List DestroyCall

/-- Write one control block on the heap. -/
def heapWrite (h : Int → NTARC_CONTROL_BLOCK) (a : Int)
    (cb : NTARC_CONTROL_BLOCK) : Int → NTARC_CONTROL_BLOCK :=
  fun x => if x = a then cb else h x

/-- An initial `ArcState`: zeroed heap, no destructor invocations. -/
def arcState0 : ArcState :=
  { heap := fun _ => ⟨0, 0, 0⟩, calls := [] }

/-- `ntarc_new_with_control_block`: store the pair. -/
def ntarc_new_with_control_block (p_data p_control_block : Int) : NTARC :=
  { p_control_block := p_control_block, p_data := p_data }

/-- `ntarc_control_block_new`: initialize a control block value. -/
def ntarc_control_block_new (reference_count p_destroy_context pfn_destroy : Int) :
    NTARC_CONTROL_BLOCK :=
  { reference_count := reference_count
    p_destroy_context := p_destroy_context
    pfn_destroy := pfn_destroy }

/-- `ntarc_new`: initialize the caller-supplied control block at `cbAddr` with
reference count 1 and return the ARC pair `(cbAddr, p_data)`. -/
def ntarc_new (p_data p_destroy_context pfn_destroy cbAddr : Int)
    (st : ArcState) : ArcState × NTARC :=
  ({ st with
      heap := heapWrite st.heap cbAddr
        (ntarc_control_block_new 1 p_destroy_context pfn_destroy) },
   ntarc_new_with_control_block p_data cbAddr)

/-- `ntarc_clone`: if `p_data ≠ 0`, `InterlockedIncrement` the reference count
of the control block; then copy the pair. -/
def ntarc_clone (p : NTARC) (st : ArcState) : ArcState × NTARC :=
  let st1 :=
    if p.p_data ≠ 0 then
      { st with
          heap := heapWrite st.heap p.p_control_block
            { st.heap p.p_control_block with
                reference_count :=
                  (st.heap p.p_control_block).reference_count + 1 } }
    else st
  (st1, { p_control_block := p.p_control_block, p_data := p.p_data })

/-- `ntarc_drop_reference`: return 0 for a null pair; otherwise
`InterlockedDecrement` the reference count and return `1 +` the new value,
i.e. the value before the decrement. -/
def ntarc_drop_reference (p : NTARC) (st : ArcState) : ArcState × Int :=
  if p.p_data = 0 then
    (st, 0)
  else
    let old := (st.heap p.p_control_block).reference_count
    ({ st with
        heap := heapWrite st.heap p.p_control_block
          { st.heap p.p_control_block with reference_count := old - 1 } },
     1 + (old - 1))

/-- `ntarc_drop_data`: when the reported reference count is 1, invoke the
destructor.  The source calls `(*NTARC_PFNDESTROY(p))(NTARC_PDESTROY_CONTEXT(p), p)`:
the callee is the stored `pfn_destroy`, and the first argument it receives is
the address of the control block's `p_destroy_context` field (the
`NTARC_PDESTROY_CONTEXT` macro takes `&(...->p_destroy_context)` and the call
site does not dereference it). -/
def ntarc_drop_data (p : NTARC) (reference_count : Int) (st : ArcState) :
    ArcState :=
  if reference_count = 1 then
    { st with
        calls := st.calls ++
          [{ pfn := (st.heap p.p_control_block).pfn_destroy
             arg1 := PtrArg.addr_destroy_context p.p_control_block }] }
  else st

/-- `ntarc_drop`: drop one reference, then run the destructor if that was the
last one; returns the reference count before the drop. -/
def ntarc_drop (p : NTARC) (st : ArcState) : ArcState × Int :=
  let s1 := ntarc_drop_reference p st
  (ntarc_drop_data p s1.2 s1.1, s1.2)

/-- `ntarc_is_equal`: identity comparison through `p_control_block`. -/
def ntarc_is_equal (a b : NTARC) : Bool :=
  decide (a.p_control_block = b.p_control_block)

/-- The transient sentinel `special_chunk = {1, 0}` used by the atomic
load/store protocol. -/
def NTARC_BUSY : NTARC :=
  { p_control_block := 1, p_data := 0 }

/-- `ntarc_atomic_begin`, interference-free semantics: the loop retries while
the cell holds a BUSY-equal pair or the 128-bit CAS fails.  Alone, a non-BUSY
cell is swapped to `NTARC_BUSY` on the first attempt; a BUSY cell spins
forever.  Returns the new cell contents and the displaced pair. -/
def ntarc_atomic_begin (cell : NTARC) : Option (NTARC × NTARC) :=
  if ntarc_is_equal cell NTARC_BUSY then none else some (NTARC_BUSY, cell)

/-- `ntarc_atomic_commit`: one 128-bit CAS from `NTARC_BUSY` to `p`.  Returns
the new cell contents and whether the CAS succeeded. -/
def ntarc_atomic_commit (cell p : NTARC) : NTARC × Bool :=
  if cell = NTARC_BUSY then (p, true) else (cell, false)

/-- `ntarc_atomic_store`, interference-free semantics: clone the operand (the
cell's own reference), acquire the cell, drop the displaced pair's reference,
publish the clone, then destroy the displaced data if no reference remained. -/
def ntarc_atomic_store (cell : NTARC) (p : NTARC) (st : ArcState) :
    Option (NTARC × ArcState) :=
  let s1 := ntarc_clone p st
  match ntarc_atomic_begin cell with
  | none => none
  | some (cellB, old_chunk) =>
    let s2 := ntarc_drop_reference old_chunk s1.1
    let cm := ntarc_atomic_commit cellB s1.2
    some (cm.1, ntarc_drop_data old_chunk s2.2 s2.1)

/-- `ntarc_atomic_load`, interference-free semantics: acquire the cell, clone
the displaced pair for the caller, restore the pair.  Returns the new cell
contents, the caller's result and the updated state. -/
def ntarc_atomic_load (cell : NTARC) (st : ArcState) :
    Option (NTARC × NTARC × ArcState) :=
  match ntarc_atomic_begin cell with
  | none => none
  | some (cellB, old_chunk) =>
    let s1 := ntarc_clone old_chunk st
    let cm := ntarc_atomic_commit cellB old_chunk
    some (cm.1, s1.2, s1.1)

/-! ## Sequential theorems -/

/-- C2: for every ARC pair `p`, `ntarc_drop` on a null pair changes no state
and returns 0; on a non-null pair it decrements the control block's reference
count (leaving every other control block untouched), returns the count's
pre-decrement value, and invokes the destructor if and only if the
post-decrement value is 0. -/
theorem ntarc_drop_spec (p : NTARC) (st : ArcState) :
    (p.p_data = 0 → ntarc_drop p st = (st, 0)) ∧
    (p.p_data ≠ 0 →
      (ntarc_drop p st).2 = (st.heap p.p_control_block).reference_count ∧
      ((ntarc_drop p st).1.heap p.p_control_block).reference_count
        = (st.heap p.p_control_block).reference_count - 1 ∧
      (∀ a, a ≠ p.p_control_block → (ntarc_drop p st).1.heap a = st.heap a) ∧
      (ntarc_drop p st).1.calls.length
        = st.calls.length +
          (if (st.heap p.p_control_block).reference_count - 1 = 0 then 1
           else 0)) := by
  constructor
  · intro h
    simp [ntarc_drop, ntarc_drop_reference, ntarc_drop_data, h]
  · intro h
    refine ⟨?_, ?_, ?_, ?_⟩
    · simp only [ntarc_drop, ntarc_drop_reference, if_neg h]
      omega
    · simp only [ntarc_drop, ntarc_drop_reference, ntarc_drop_data, if_neg h]
      split_ifs <;> simp [heapWrite]
    · intro a ha
      simp only [ntarc_drop, ntarc_drop_reference, ntarc_drop_data, if_neg h]
      split_ifs <;> simp_all [heapWrite]
    · simp only [ntarc_drop, ntarc_drop_reference, ntarc_drop_data, if_neg h]
      split_ifs <;> simp <;> omega

/-- A concrete ARC used to exhibit the destructor-argument slip: user data at
5, destroy context 77, destructor function 9, control block at address 100. -/
def c3arc : ArcState × NTARC := ntarc_new 5 77 9 100 arcState0

/-- C3 (code bug): dropping the last reference invokes the stored destructor,
but its first argument is the address of the control block's
`p_destroy_context` field (the `NTARC_PDESTROY_CONTEXT` macro yields
`&cb->p_destroy_context` and, unlike the parallel `NTARC_PFNDESTROY` use, the
call site never dereferences it) — not the `destroy_context` value 77 supplied
at creation time, contradicting the claim. -/
theorem ntarc_destroy_context_arg_bug :
    (ntarc_drop c3arc.2 c3arc.1).1.calls
      = [{ pfn := 9, arg1 := PtrArg.addr_destroy_context 100 }] ∧
    PtrArg.addr_destroy_context 100 ≠ PtrArg.value 77 := by
  constructor
  · decide
  · decide

/-- C4: storing a local ARC value `v` into a cell and then loading from that
cell (with no intervening stores) completes and produces a result that is
identity-equal to `v` in the sense of `ntarc_is_equal`. -/
theorem ntarc_store_then_load_identity (cell v : NTARC) (st : ArcState)
    (h1 : cell.p_control_block ≠ 1) (h2 : v.p_control_block ≠ 1) :
    ∃ cell1 st1 cell2 out st2,
      ntarc_atomic_store cell v st = some (cell1, st1) ∧
      ntarc_atomic_load cell1 st1 = some (cell2, out, st2) ∧
      ntarc_is_equal out v = true := by
  obtain ⟨st1, hs⟩ : ∃ st1, ntarc_atomic_store cell v st = some (v, st1) := by
    simp [ntarc_atomic_store, ntarc_atomic_begin, ntarc_is_equal, NTARC_BUSY,
      ntarc_atomic_commit, ntarc_clone, h1]
  obtain ⟨st2, hl⟩ : ∃ st2, ntarc_atomic_load v st1 = some (v, v, st2) := by
    simp [ntarc_atomic_load, ntarc_atomic_begin, ntarc_is_equal, NTARC_BUSY,
      ntarc_atomic_commit, ntarc_clone, h2]
  exact ⟨v, st1, v, v, st2, hs, hl, by simp [ntarc_is_equal]⟩

/-- C4 witness: a concrete store-then-load round trip. -/
theorem ntarc_store_then_load_identity_witness :
    ∃ cell1 st1 cell2 out st2,
      ntarc_atomic_store ⟨0, 0⟩ ⟨100, 5⟩ arcState0 = some (cell1, st1) ∧
      ntarc_atomic_load cell1 st1 = some (cell2, out, st2) ∧
      ntarc_is_equal out ⟨100, 5⟩ = true :=
  ntarc_store_then_load_identity ⟨0, 0⟩ ⟨100, 5⟩ arcState0 (by decide) (by decide)

/-- C2 witness: a null drop is a no-op returning 0, and a non-null drop
returns the pre-decrement reference count. -/
theorem ntarc_drop_spec_witness :
    ntarc_drop ⟨100, 0⟩ arcState0 = (arcState0, 0) ∧
    (ntarc_drop ⟨100, 5⟩ (ntarc_new 5 7 9 100 arcState0).1).2
      = (((ntarc_new 5 7 9 100 arcState0).1).heap 100).reference_count :=
  ⟨(ntarc_drop_spec ⟨100, 0⟩ arcState0).1 rfl,
   ((ntarc_drop_spec ⟨100, 5⟩ (ntarc_new 5 7 9 100 arcState0).1).2
      (by decide)).1⟩

/-- The write-side CAS attempt, characterized. -/
lemma ntringb_poll_commit_write_eq (r : NTRINGB) (c : NTRINGB_POS) :
    ntringb_poll_commit_write r c =
      if r.last_write_pos = c.current_pos - 1 then
        ({ r with last_write_pos := c.current_pos }, true)
      else (r, false) := by
  unfold ntringb_poll_commit_write interlockedCompareExchange
  by_cases h : r.last_write_pos = c.current_pos - 1
  · simp [h]
  · simp [h, eq_comm]

/-- The read-side CAS attempt, characterized. -/
lemma ntringb_poll_commit_read_eq (r : NTRINGB) (c : NTRINGB_POS) :
    ntringb_poll_commit_read r c =
      if r.last_read_pos = c.current_pos - 1 then
        ({ r with last_read_pos := c.current_pos }, true)
      else (r, false) := by
  unfold ntringb_poll_commit_read interlockedCompareExchange
  by_cases h : r.last_read_pos = c.current_pos - 1
  · simp [h]
  · simp [h, eq_comm]

/-- C5: each commit is a single CAS attempt on the corresponding watermark; a
blocking commit holding claim `p = current_pos` completes exactly when the
watermark equals `p - 1`, in which case it moves it to `p` — an advance by
exactly 1 with every other field unchanged; reads behave symmetrically. -/
theorem ntringb_commit_cas_spec (r : NTRINGB) (c : NTRINGB_POS) :
    (ntringb_commit_write r c =
      if r.last_write_pos = c.current_pos - 1 then
        some { r with last_write_pos := c.current_pos }
      else none) ∧
    (∀ r1, ntringb_commit_write r c = some r1 →
      r1.last_write_pos = r.last_write_pos + 1 ∧
      r1.last_write_pos = c.current_pos ∧
      r1.next_write_pos = r.next_write_pos ∧
      r1.next_read_pos = r.next_read_pos ∧
      r1.last_read_pos = r.last_read_pos ∧
      r1.pow2_buffer_count = r.pow2_buffer_count) ∧
    (ntringb_commit_read r c =
      if r.last_read_pos = c.current_pos - 1 then
        some { r with last_read_pos := c.current_pos }
      else none) ∧
    (∀ r1, ntringb_commit_read r c = some r1 →
      r1.last_read_pos = r.last_read_pos + 1 ∧
      r1.last_read_pos = c.current_pos ∧
      r1.next_write_pos = r.next_write_pos ∧
      r1.last_write_pos = r.last_write_pos ∧
      r1.next_read_pos = r.next_read_pos ∧
      r1.pow2_buffer_count = r.pow2_buffer_count) := by
  refine ⟨?_, ?_, ?_, ?_⟩
  · simp only [ntringb_commit_write, ntringb_poll_commit_write_eq]
    split_ifs <;> rfl
  · intro r1 h1
    simp only [ntringb_commit_write, ntringb_poll_commit_write_eq] at h1
    split_ifs at h1 with h
    injection h1 with h2
    subst h2
    refine ⟨?_, ?_, ?_, ?_, ?_, ?_⟩ <;> simp <;> omega
  · simp only [ntringb_commit_read, ntringb_poll_commit_read_eq]
    split_ifs <;> rfl
  · intro r1 h1
    simp only [ntringb_commit_read, ntringb_poll_commit_read_eq] at h1
    split_ifs at h1 with h
    injection h1 with h2
    subst h2
    refine ⟨?_, ?_, ?_, ?_, ?_, ?_⟩ <;> simp <;> omega

/-- C5 witness: on a ring whose write watermark is 4, a commit of claim 5
completes and advances the watermark to 5. -/
theorem ntringb_commit_cas_spec_witness :
    ntringb_commit_write ⟨7, 4, -1, -1, 8⟩ ⟨5⟩
      = some { next_write_pos := 7, last_write_pos := 5, next_read_pos := -1,
               last_read_pos := -1, pow2_buffer_count := 8 } ∧
    (5 : Int) = 4 + 1 := by
  have h := (ntringb_commit_cas_spec ⟨7, 4, -1, -1, 8⟩ ⟨5⟩).1
  constructor
  · rw [h]; decide
  · decide

/-- C9: `ntringb_init` sets all four watermarks to -1 and stores the capacity;
on such a fresh ring with power-of-two capacity at least 2, the first
`ntringb_begin_write` claims sequence number 0 and returns buffer index 0,
the masked value `0 &&& (capacity - 1)`. -/
theorem ntringb_init_first_begin_write (cap : Int) (k : Nat)
    (hpow : cap = 2 ^ k) (h2 : 2 ≤ cap) :
    (ntringb_init cap).next_write_pos = -1 ∧
    (ntringb_init cap).last_write_pos = -1 ∧
    (ntringb_init cap).next_read_pos = -1 ∧
    (ntringb_init cap).last_read_pos = -1 ∧
    (ntringb_init cap).pow2_buffer_count = cap ∧
    ∃ r1 c1,
      ntringb_begin_write (ntringb_init cap) ntringb_pos_init
        = some (r1, c1, 0) ∧
      c1.current_pos = 0 := by
  refine ⟨rfl, rfl, rfl, rfl, rfl, ?_⟩
  have hmask : Int.land 0 (cap - 1) = 0 := by
    obtain ⟨m, hm⟩ := Int.eq_ofNat_of_zero_le (by omega : (0 : Int) ≤ cap - 1)
    rw [hm]
    simp [Int.land]
  refine ⟨{ next_write_pos := 0, last_write_pos := -1, next_read_pos := -1,
            last_read_pos := -1, pow2_buffer_count := cap }, ⟨0⟩, ?_, rfl⟩
  simp only [ntringb_begin_write, ntringb_init, ntringb_pos_init,
    ntringb_available_write]
  rw [if_pos (by omega)]
  norm_num [hmask]

/-- C9 witness: capacity 4 = 2 ^ 2. -/
theorem ntringb_init_first_begin_write_witness :
    (ntringb_init 4).next_write_pos = -1 ∧
    (ntringb_init 4).last_write_pos = -1 ∧
    (ntringb_init 4).next_read_pos = -1 ∧
    (ntringb_init 4).last_read_pos = -1 ∧
    (ntringb_init 4).pow2_buffer_count = 4 ∧
    ∃ r1 c1,
      ntringb_begin_write (ntringb_init 4) ntringb_pos_init
        = some (r1, c1, 0) ∧
      c1.current_pos = 0 :=
  ntringb_init_first_begin_write 4 2 (by norm_num) (by norm_num)

/-- C10: the two poll-readiness operations return the ring and the cursor
exactly as given (they only read), and answer `true` precisely when the
corresponding availability count is at least 1. -/
theorem ntringb_poll_ready_frame (r : NTRINGB) (c : NTRINGB_POS) :
    (ntringb_poll_write_ready r c).1 = r ∧
    (ntringb_poll_write_ready r c).2.1 = c ∧
    ((ntringb_poll_write_ready r c).2.2 = true ↔
      1 ≤ r.pow2_buffer_count + r.last_read_pos - c.current_pos + 1) ∧
    (ntringb_poll_read_ready r c).1 = r ∧
    (ntringb_poll_read_ready r c).2.1 = c ∧
    ((ntringb_poll_read_ready r c).2.2 = true ↔
      1 ≤ r.last_write_pos - c.current_pos + 1) := by
  refine ⟨rfl, rfl, ?_, rfl, rfl, ?_⟩ <;>
    simp only [ntringb_poll_write_ready, ntringb_poll_read_ready,
      ntringb_available_write, ntringb_available_read, decide_eq_true_eq] <;>
    omega

/-- C10 witness: a concrete ring with one committed write and nothing read. -/
theorem ntringb_poll_ready_frame_witness :
    ((ntringb_poll_write_ready ⟨0, 0, -1, -1, 8⟩ ⟨0⟩).2.2 = true ↔
      (1 : Int) ≤ 8 + -1 - 0 + 1) ∧
    ((ntringb_poll_read_ready ⟨0, 0, -1, -1, 8⟩ ⟨0⟩).2.2 = true ↔
      (1 : Int) ≤ 0 - 0 + 1) :=
  ⟨(ntringb_poll_ready_frame ⟨0, 0, -1, -1, 8⟩ ⟨0⟩).2.2.1,
   (ntringb_poll_ready_frame ⟨0, 0, -1, -1, 8⟩ ⟨0⟩).2.2.2.2.2⟩

/-! ## Counterexamples to C6 and C7 as stated

Both use only completed operations of the polling interface, issued by one or
more cursors on a freshly initialized ring. -/

/-- A polling consumer on a fresh ring of capacity 8: claim a read and commit
it without any readiness check. -/
def c6run : NTRINGB :=
  let s1 := ntringb_poll_begin_read (ntringb_init 8) ntringb_pos_init
  (ntringb_poll_commit_read s1.1 s1.2.1).1

/-- C6 counterexample: after `ntringb_init 8`, the completed operation
sequence `poll_begin_read; poll_commit_read` (the polling form, with no
intervening readiness check) leaves `last_read_pos = 0 > last_write_pos = -1`,
violating the claimed invariant `last_read_pos ≤ last_write_pos`. -/
theorem ntringb_poll_commit_read_breaks_watermark_order :
    ¬ (c6run.last_read_pos ≤ c6run.last_write_pos) := by decide

/-- Three polling producers on a fresh ring of capacity 2, each claiming one
write: every claim increments `next_write_pos` with no availability wait. -/
def c7run : NTRINGB :=
  let s1 := ntringb_poll_begin_write (ntringb_init 2) ntringb_pos_init
  let s2 := ntringb_poll_begin_write s1.1 ntringb_pos_init
  (ntringb_poll_begin_write s2.1 ntringb_pos_init).1

/-- C7 counterexample: after `ntringb_init 2` and three completed
`poll_begin_write` operations by three cursors, `next_write_pos = 2` and
`last_read_pos = -1`, so `next_write_pos - last_read_pos = 3` exceeds the
capacity 2. -/
theorem ntringb_poll_begin_write_exceeds_capacity :
    ¬ (c7run.next_write_pos - c7run.last_read_pos ≤ c7run.pow2_buffer_count) := by
  decide

/-! ## C1: the clone/drop lifecycle of a root ARC value -/

/-- One caller operation on a reference to a root ARC value. -/
inductive ArcOp where
  | clone
  | drop
  deriving DecidableEq, Repr

/-- Run a sequence of clone/drop operations on references to the value `v`.
Every reference produced by `ntarc_clone` is the same `NTARC` pair as `v`, so
each operation acts on the pair `v` itself. -/
def runArcOps (v : NTARC) : ArcState → List ArcOp → ArcState
  | st, [] => st
  | st, ArcOp.clone :: rest => runArcOps v (ntarc_clone v st).1 rest
  | st, ArcOp.drop :: rest => runArcOps v (ntarc_drop v st).1 rest

/-- Net effect of an operation sequence on the reference count. -/
def arcDelta (ops : List ArcOp) : Int :=
  (ops.countP (fun o => decide (o = ArcOp.clone)) : Int)
    - (ops.countP (fun o => decide (o = ArcOp.drop)) : Int)

/-- Number of references still live after running `ops` on a fresh root value
(which starts with one reference). -/
def arcLive (ops : List ArcOp) : Int := 1 + arcDelta ops

lemma arcDelta_nil : arcDelta [] = 0 := rfl

lemma arcDelta_cons_clone (l : List ArcOp) :
    arcDelta (ArcOp.clone :: l) = arcDelta l + 1 := by
  simp [arcDelta, List.countP_cons]
  omega

lemma arcDelta_cons_drop (l : List ArcOp) :
    arcDelta (ArcOp.drop :: l) = arcDelta l - 1 := by
  simp [arcDelta, List.countP_cons]
  omega

lemma arcDelta_append_drop (l : List ArcOp) :
    arcDelta (l ++ [ArcOp.drop]) = arcDelta l - 1 := by
  simp [arcDelta, List.countP_append]
  omega

/-- Effect of a non-null `ntarc_clone` on the shared state: the reference
count goes up by one and no destructor runs. -/
lemma ntarc_clone_effect (v : NTARC) (st : ArcState) (hd : v.p_data ≠ 0) :
    ((ntarc_clone v st).1.heap v.p_control_block).reference_count
      = (st.heap v.p_control_block).reference_count + 1 ∧
    (ntarc_clone v st).1.calls = st.calls := by
  constructor
  · simp [ntarc_clone, hd, heapWrite]
  · simp [ntarc_clone, hd]

/-- Effect of a non-null `ntarc_drop` on the shared state: the reported value
is the pre-decrement count, the count goes down by one, and the destructor log
grows exactly when the pre-decrement count was 1. -/
lemma ntarc_drop_effect (v : NTARC) (st : ArcState) (hd : v.p_data ≠ 0) :
    (ntarc_drop v st).2 = (st.heap v.p_control_block).reference_count ∧
    ((ntarc_drop v st).1.heap v.p_control_block).reference_count
      = (st.heap v.p_control_block).reference_count - 1 ∧
    (ntarc_drop v st).1.calls.length
      = st.calls.length
        + (if (st.heap v.p_control_block).reference_count = 1 then 1 else 0) := by
  refine ⟨?_, ?_, ?_⟩
  · simp only [ntarc_drop, ntarc_drop_reference, if_neg hd]
    omega
  · simp only [ntarc_drop, ntarc_drop_reference, ntarc_drop_data, if_neg hd]
    split_ifs <;> simp [heapWrite]
  · simp only [ntarc_drop, ntarc_drop_reference, ntarc_drop_data, if_neg hd]
    split_ifs <;> simp <;> omega

/-- Main induction for C1: starting from a positive reference count `n`, as
long as every proper prefix of `ops` keeps at least one reference live, the
final reference count is `n + arcDelta ops` and the destructor has run exactly
once if that final count is 0, otherwise not at all. -/
lemma runArcOps_count (v : NTARC) (hd : v.p_data ≠ 0) :
    ∀ (ops : List ArcOp) (st : ArcState) (n : Int),
      (st.heap v.p_control_block).reference_count = n →
      0 < n →
      (∀ k, k < ops.length → 0 < n + arcDelta (ops.take k)) →
      ((runArcOps v st ops).heap v.p_control_block).reference_count
          = n + arcDelta ops ∧
      (runArcOps v st ops).calls.length
          = st.calls.length + (if n + arcDelta ops = 0 then 1 else 0) := by
  intro ops
  induction ops with
  | nil =>
    intro st n hrc hn hv
    refine ⟨by simpa [runArcOps, arcDelta_nil] using hrc, ?_⟩
    rw [arcDelta_nil]
    simp [runArcOps]
    omega
  | cons op rest ih =>
    intro st n hrc hn hv
    cases op with
    | clone =>
      obtain ⟨hc1, hc2⟩ := ntarc_clone_effect v st hd
      have hv1 : ∀ k, k < rest.length → 0 < (n + 1) + arcDelta (rest.take k) := by
        intro k hk
        have h0 := hv (k + 1) (by simpa using Nat.succ_lt_succ hk)
        rw [List.take_succ_cons, arcDelta_cons_clone] at h0
        omega
      obtain ⟨h1, h2⟩ :=
        ih (ntarc_clone v st).1 (n + 1) (by rw [hc1, hrc]) (by omega) hv1
      rw [show runArcOps v st (ArcOp.clone :: rest)
            = runArcOps v (ntarc_clone v st).1 rest from rfl]
      rw [arcDelta_cons_clone, h1, h2, hc2]
      constructor
      · omega
      · congr 1
        rw [show (n + 1) + arcDelta rest = n + (arcDelta rest + 1) from by omega]
    | drop =>
      obtain ⟨hd1, hd2, hd3⟩ := ntarc_drop_effect v st hd
      by_cases hone : n = 1
      · have hrest : rest = [] := by
          by_contra hne
          have hlen : 1 < (ArcOp.drop :: rest).length := by
            simp [List.length_cons]
            exact Nat.pos_of_ne_zero (fun h0 => hne (List.eq_nil_of_length_eq_zero h0))
          have h0 := hv 1 hlen
          rw [show (ArcOp.drop :: rest).take 1 = [ArcOp.drop] from rfl] at h0
          rw [show arcDelta [ArcOp.drop] = -1 from rfl] at h0
          omega
        subst hrest
        rw [show runArcOps v st [ArcOp.drop]
              = (ntarc_drop v st).1 from rfl]
        rw [arcDelta_cons_drop, arcDelta_nil]
        refine ⟨by omega, ?_⟩
        rw [hd3, hrc, if_pos hone]
        rw [if_pos (by omega : n + (0 - 1) = 0)]
      · have hv1 : ∀ k, k < rest.length → 0 < (n - 1) + arcDelta (rest.take k) := by
          intro k hk
          have h0 := hv (k + 1) (by simpa using Nat.succ_lt_succ hk)
          rw [List.take_succ_cons, arcDelta_cons_drop] at h0
          omega
        have hn1 : 0 < n - 1 := by omega
        obtain ⟨h1, h2⟩ :=
          ih (ntarc_drop v st).1 (n - 1) (by rw [hd2, hrc]) hn1 hv1
        rw [show runArcOps v st (ArcOp.drop :: rest)
              = runArcOps v (ntarc_drop v st).1 rest from rfl]
        rw [arcDelta_cons_drop, h1, h2, hd3, hrc, if_neg hone]
        constructor
        · omega
        · rw [show (n - 1) + arcDelta rest = n + (arcDelta rest - 1) from by omega]
          omega

/-- C1: for a value created by `ntarc_new` (with non-null data) and any finite
sequence of `ntarc_clone`/`ntarc_drop` operations performed while at least one
reference is live, the destructor is invoked exactly once, namely at the final
drop — the one whose return value is 1, i.e. the count's 1-to-0 transition —
and never before: after any prefix the destructor log has grown by 1 if the
live count has reached 0 and by 0 otherwise, and a drop at position `k`
returns 1 exactly when it takes the live count to 0. -/
theorem ntarc_clone_drop_destroys_exactly_once
    (dataP ctx pfn cbAddr : Int) (st : ArcState) (ops : List ArcOp)
    (hd : dataP ≠ 0)
    (hv : ∀ k, k < ops.length → 0 < arcLive (ops.take k)) :
    (∀ k, k ≤ ops.length →
      (runArcOps (ntarc_new dataP ctx pfn cbAddr st).2
          (ntarc_new dataP ctx pfn cbAddr st).1 (ops.take k)).calls.length
        = st.calls.length
          + (if arcLive (ops.take k) = 0 then 1 else 0)) ∧
    (∀ k, ∀ hk : k < ops.length, ops.get ⟨k, hk⟩ = ArcOp.drop →
      ((ntarc_drop (ntarc_new dataP ctx pfn cbAddr st).2
          (runArcOps (ntarc_new dataP ctx pfn cbAddr st).2
            (ntarc_new dataP ctx pfn cbAddr st).1 (ops.take k))).2 = 1
        ↔ arcLive (ops.take (k + 1)) = 0)) := by
  have hvd : (ntarc_new dataP ctx pfn cbAddr st).2.p_data ≠ 0 := hd
  have hrc0 : (((ntarc_new dataP ctx pfn cbAddr st).1).heap
      ((ntarc_new dataP ctx pfn cbAddr st).2).p_control_block).reference_count
      = 1 := by
    simp [ntarc_new, ntarc_new_with_control_block, ntarc_control_block_new,
      heapWrite]
  have hcalls0 : ((ntarc_new dataP ctx pfn cbAddr st).1).calls = st.calls := rfl
  have hpfx : ∀ k, ∀ j, j < (ops.take k).length →
      0 < 1 + arcDelta ((ops.take k).take j) := by
    intro k j hj
    rw [List.length_take] at hj
    rw [List.take_take, min_eq_left (by omega : j ≤ k)]
    exact hv j (by omega)
  have hmain : ∀ k,
      ((runArcOps (ntarc_new dataP ctx pfn cbAddr st).2
          (ntarc_new dataP ctx pfn cbAddr st).1 (ops.take k)).heap
        ((ntarc_new dataP ctx pfn cbAddr st).2).p_control_block).reference_count
          = 1 + arcDelta (ops.take k) ∧
      (runArcOps (ntarc_new dataP ctx pfn cbAddr st).2
          (ntarc_new dataP ctx pfn cbAddr st).1 (ops.take k)).calls.length
          = st.calls.length
            + (if 1 + arcDelta (ops.take k) = 0 then 1 else 0) := by
    intro k
    have h0 := runArcOps_count (ntarc_new dataP ctx pfn cbAddr st).2 hvd
      (ops.take k) (ntarc_new dataP ctx pfn cbAddr st).1 1 hrc0 (by omega)
      (hpfx k)
    rw [hcalls0] at h0
    exact h0
  constructor
  · intro k _
    have h1 := (hmain k).2
    simpa [arcLive] using h1
  · intro k hk hdrop
    have hret : (ntarc_drop (ntarc_new dataP ctx pfn cbAddr st).2
        (runArcOps (ntarc_new dataP ctx pfn cbAddr st).2
          (ntarc_new dataP ctx pfn cbAddr st).1 (ops.take k))).2
        = 1 + arcDelta (ops.take k) := by
      rw [(ntarc_drop_effect _ _ hvd).1, (hmain k).1]
    have hk1 : arcLive (ops.take (k + 1)) = arcLive (ops.take k) - 1 := by
      have hsome : ops[k]? = some ArcOp.drop := by
        rw [List.getElem?_eq_getElem hk]
        exact congrArg some (by simpa using hdrop)
      rw [arcLive, arcLive, List.take_succ, hsome]
      simp [arcDelta_append_drop]
    have hpos := hv k hk
    rw [hret, hk1]
    rw [arcLive] at hpos ⊢
    omega

/-- C1 witness: `new; clone; drop; drop` on a concrete value — after the full
sequence the live count is 0 and the destructor has run exactly once. -/
theorem ntarc_clone_drop_destroys_exactly_once_witness :
    (runArcOps (ntarc_new 5 7 9 100 arcState0).2
        (ntarc_new 5 7 9 100 arcState0).1
        ([ArcOp.clone, ArcOp.drop, ArcOp.drop].take 3)).calls.length
      = arcState0.calls.length
        + (if arcLive ([ArcOp.clone, ArcOp.drop, ArcOp.drop].take 3) = 0
           then 1 else 0) :=
  (ntarc_clone_drop_destroys_exactly_once 5 7 9 100 arcState0
    [ArcOp.clone, ArcOp.drop, ArcOp.drop] (by decide) (by decide)).1 3
    (by decide)

/-! ## Concurrent ring model (C6, C7)

Each event is one atomic instruction of the source executed by one cursor:
`claimW`/`claimR` are the `InterlockedIncrement` at the top of
`ntringb_begin_write` / `ntringb_begin_read` (also the body of the respective
`poll_begin` forms); `readyW`/`readyR` are a spin-loop iteration (or a
`poll_*_ready` call) that observes availability at least 1 — an observation
that fails changes nothing; `commitW`/`commitR` are one CAS attempt of the
commit loop, a no-op when the CAS comparand does not match.  A commit event
fires only for a cursor that has observed availability, which is exactly the
blocking discipline (and the documented polling discipline); as the
counterexamples above show, an undisciplined `poll_commit_read` can break the
watermark ordering.  The flag `wd` selects whether write-side commits also
require the availability observation (`wd = true`: blocking discipline on the
producer side as well). -/

/-- Phase of one cursor: idle, holding a write claim `p` (before/after
observing space), or holding a read claim `p` (before/after observing data). -/
inductive TState where
  | idle
  | wClaimed (p : Int)
  | wReady (p : Int)
  | rClaimed (p : Int)
  | rReady (p : Int)
  deriving DecidableEq, Repr

/-- One atomic event, tagged with the cursor (thread) index performing it. -/
inductive RingEv where
  | claimW (t : Nat)
  | readyW (t : Nat)
  | commitW (t : Nat)
  | claimR (t : Nat)
  | readyR (t : Nat)
  | commitR (t : Nat)
  deriving DecidableEq, Repr

/-- Global configuration: the shared ring and the phase of each cursor. -/
structure RingSys where
  ring : NTRINGB
  thr : List TState

/-- One successful-or-failed CAS attempt of `ntringb_commit_write` by cursor
`t` holding claim `p`. -/
def attemptCommitW (s : RingSys) (t : Nat) (p : Int) : RingSys :=
  if s.ring.last_write_pos = p - 1 then
    { ring := { s.ring with last_write_pos := p }
      thr := s.thr.set t TState.idle }
  else s

/-- One CAS attempt of `ntringb_commit_read` by cursor `t` holding claim `p`. -/
def attemptCommitR (s : RingSys) (t : Nat) (p : Int) : RingSys :=
  if s.ring.last_read_pos = p - 1 then
    { ring := { s.ring with last_read_pos := p }
      thr := s.thr.set t TState.idle }
  else s

/-- Small-step semantics of one event. -/
def stepEv (wd : Bool) (s : RingSys) (e : RingEv) : RingSys :=
  match e with
  | RingEv.claimW t =>
    if t < s.thr.length then
      match s.thr.getD t TState.idle with
      | TState.idle =>
        { ring := { s.ring with next_write_pos := s.ring.next_write_pos + 1 }
          thr := s.thr.set t (TState.wClaimed (s.ring.next_write_pos + 1)) }
      | _ => s
    else s
  | RingEv.readyW t =>
    match s.thr.getD t TState.idle with
    | TState.wClaimed p =>
      if 1 ≤ s.ring.pow2_buffer_count + s.ring.last_read_pos - p + 1 then
        { s with thr := s.thr.set t (TState.wReady p) }
      else s
    | _ => s
  | RingEv.commitW t =>
    match s.thr.getD t TState.idle with
    | TState.wClaimed p => if wd then s else attemptCommitW s t p
    | TState.wReady p => attemptCommitW s t p
    | _ => s
  | RingEv.claimR t =>
    if t < s.thr.length then
      match s.thr.getD t TState.idle with
      | TState.idle =>
        { ring := { s.ring with next_read_pos := s.ring.next_read_pos + 1 }
          thr := s.thr.set t (TState.rClaimed (s.ring.next_read_pos + 1)) }
      | _ => s
    else s
  | RingEv.readyR t =>
    match s.thr.getD t TState.idle with
    | TState.rClaimed p =>
      if 1 ≤ s.ring.last_write_pos - p + 1 then
        { s with thr := s.thr.set t (TState.rReady p) }
      else s
    | _ => s
  | RingEv.commitR t =>
    match s.thr.getD t TState.idle with
    | TState.rReady p => attemptCommitR s t p
    | _ => s

/-- Initial configuration: a freshly initialized ring and `n` idle cursors. -/
def initRingSys (cap : Int) (n : Nat) : RingSys :=
  { ring := ntringb_init cap, thr := List.replicate n TState.idle }

/-- Run an interleaving from the initial configuration. -/
def runRing (wd : Bool) (cap : Int) (n : Nat) (evs : List RingEv) : RingSys :=
  evs.foldl (stepEv wd) (initRingSys cap n)

/-- Does this cursor hold a begun-but-uncommitted write claim? -/
def wInFlight : TState → Bool
  | TState.wClaimed _ => true
  | TState.wReady _ => true
  | _ => false

/-- Per-cursor facts tied to the ring state: claims never exceed the claim
counters, and an observed-ready claim is covered by the relevant watermark. -/
def TOk (r : NTRINGB) : TState → Prop
  | TState.idle => True
  | TState.wClaimed p => p ≤ r.next_write_pos
  | TState.wReady p =>
      p ≤ r.next_write_pos ∧ p ≤ r.pow2_buffer_count + r.last_read_pos
  | TState.rClaimed p => p ≤ r.next_read_pos
  | TState.rReady p => p ≤ r.next_read_pos ∧ p ≤ r.last_write_pos

/-- The claimed watermark ordering of C6. -/
def RingInv (r : NTRINGB) : Prop :=
  -1 ≤ r.last_read_pos ∧
  r.last_read_pos ≤ r.next_read_pos ∧
  r.last_read_pos ≤ r.last_write_pos ∧
  r.last_write_pos ≤ r.next_write_pos

/-- Inductive invariant: watermark ordering, the claim-accounting identity
`next_write = last_write + (in-flight write claims)`, capacity constancy,
and the per-cursor facts. -/
def SysInv (cap : Int) (s : RingSys) : Prop :=
  RingInv s.ring ∧
  s.ring.next_write_pos
    = s.ring.last_write_pos + (s.thr.countP wInFlight : Int) ∧
  s.ring.pow2_buffer_count = cap ∧
  ∀ st ∈ s.thr, TOk s.ring st

lemma getD_of_lt {α : Type} (l : List α) (t : Nat) (d : α)
    (h : t < l.length) : l.getD t d = l[t] := by
  rw [List.getD_eq_getElem?_getD, List.getElem?_eq_getElem h]
  rfl

lemma getD_lt_length {α : Type} (l : List α) (t : Nat) (d : α)
    (h : l.getD t d ≠ d) : t < l.length := by
  by_contra hc
  exact h (List.getD_eq_default l d (by omega))

/-- `TOk` is monotone in the quantities that only ever grow. -/
lemma TOk_mono {r r' : NTRINGB} (st : TState)
    (hnw : r.next_write_pos ≤ r'.next_write_pos)
    (hnr : r.next_read_pos ≤ r'.next_read_pos)
    (hlw : r.last_write_pos ≤ r'.last_write_pos)
    (hcl : r.pow2_buffer_count + r.last_read_pos
            ≤ r'.pow2_buffer_count + r'.last_read_pos)
    (h : TOk r st) : TOk r' st := by
  cases st <;> simp only [TOk] at h ⊢ <;> first | trivial | omega

/-- A fresh write claim preserves the invariant. -/
lemma inv_claimW (cap : Int) (s : RingSys) (t : Nat) (h : SysInv cap s)
    (ht : t < s.thr.length)
    (hel : s.thr[t] = TState.idle) :
    SysInv cap
      { ring := { s.ring with next_write_pos := s.ring.next_write_pos + 1 }
        thr := s.thr.set t (TState.wClaimed (s.ring.next_write_pos + 1)) } := by
  obtain ⟨⟨i1, i2, i3, i4⟩, hcnt, hcap, htok⟩ := h
  refine ⟨⟨i1, i2, i3, by dsimp only; omega⟩, ?_, hcap, ?_⟩
  · dsimp only
    rw [List.countP_set wInFlight s.thr t _ ht, hel]
    simp only [wInFlight]
    push_cast
    omega
  · intro st hst
    rcases List.mem_or_eq_of_mem_set hst with hm | rfl
    · refine TOk_mono st ?_ ?_ ?_ ?_ (htok st hm) <;> dsimp only <;> omega
    · show s.ring.next_write_pos + 1 ≤ s.ring.next_write_pos + 1
      omega

/-- A successful write-availability observation preserves the invariant. -/
lemma inv_readyW (cap : Int) (s : RingSys) (t : Nat) (p : Int) (h : SysInv cap s)
    (hg : s.thr.getD t TState.idle = TState.wClaimed p)
    (hav : 1 ≤ s.ring.pow2_buffer_count + s.ring.last_read_pos - p + 1) :
    SysInv cap { s with thr := s.thr.set t (TState.wReady p) } := by
  obtain ⟨hri, hcnt, hcap, htok⟩ := h
  have ht : t < s.thr.length := getD_lt_length _ _ _ (by rw [hg]; simp)
  have hel : s.thr[t] = TState.wClaimed p := by
    rw [← getD_of_lt s.thr t TState.idle ht, hg]
  have hmem : TState.wClaimed p ∈ s.thr := by
    rw [← hel]; exact List.getElem_mem ht
  refine ⟨hri, ?_, hcap, ?_⟩
  · have hpos : 0 < s.thr.countP wInFlight :=
      List.countP_pos.mpr ⟨_, hmem, rfl⟩
    dsimp only
    rw [List.countP_set wInFlight s.thr t _ ht, hel]
    simp [wInFlight]
    omega
  · intro st hst
    rcases List.mem_or_eq_of_mem_set hst with hm | rfl
    · exact htok st hm
    · exact ⟨htok _ hmem, by dsimp only; omega⟩

/-- A write-commit CAS attempt preserves the invariant (whether it holds a
mere claim or an observed-ready claim, and whether it succeeds or fails). -/
lemma inv_commitW (cap : Int) (s : RingSys) (t : Nat) (p : Int) (h : SysInv cap s)
    (hg : s.thr.getD t TState.idle = TState.wClaimed p
        ∨ s.thr.getD t TState.idle = TState.wReady p) :
    SysInv cap (attemptCommitW s t p) := by
  obtain ⟨⟨i1, i2, i3, i4⟩, hcnt, hcap, htok⟩ := h
  unfold attemptCommitW
  split_ifs with hcas
  · have ht : t < s.thr.length := by
      refine getD_lt_length s.thr t TState.idle ?_
      intro hc
      rcases hg with hg1 | hg1 <;> rw [hc] at hg1 <;> cases hg1
    have hel : s.thr[t] = TState.wClaimed p ∨ s.thr[t] = TState.wReady p := by
      rw [← getD_of_lt s.thr t TState.idle ht]; exact hg
    have hmem : s.thr[t] ∈ s.thr := List.getElem_mem ht
    have hple : p ≤ s.ring.next_write_pos := by
      rcases hel with he | he
      · have h0 := htok _ hmem; rw [he] at h0; exact h0
      · have h0 := htok _ hmem; rw [he] at h0; exact h0.1
    have hfl : wInFlight s.thr[t] = true := by
      rcases hel with he | he <;> rw [he] <;> rfl
    have hpos : 0 < s.thr.countP wInFlight :=
      List.countP_pos.mpr ⟨s.thr[t], hmem, hfl⟩
    refine ⟨⟨i1, i2, by dsimp only; omega, by dsimp only; omega⟩, ?_, hcap, ?_⟩
    · dsimp only
      rw [List.countP_set wInFlight s.thr t _ ht, hfl]
      simp [wInFlight]
      omega
    · intro st hst
      rcases List.mem_or_eq_of_mem_set hst with hm | rfl
      · refine TOk_mono st ?_ ?_ ?_ ?_ (htok st hm) <;> dsimp only <;> omega
      · trivial
  · exact ⟨⟨i1, i2, i3, i4⟩, hcnt, hcap, htok⟩

/-- A fresh read claim preserves the invariant. -/
lemma inv_claimR (cap : Int) (s : RingSys) (t : Nat) (h : SysInv cap s)
    (ht : t < s.thr.length)
    (hel : s.thr[t] = TState.idle) :
    SysInv cap
      { ring := { s.ring with next_read_pos := s.ring.next_read_pos + 1 }
        thr := s.thr.set t (TState.rClaimed (s.ring.next_read_pos + 1)) } := by
  obtain ⟨⟨i1, i2, i3, i4⟩, hcnt, hcap, htok⟩ := h
  refine ⟨⟨i1, by dsimp only; omega, i3, i4⟩, ?_, hcap, ?_⟩
  · dsimp only
    rw [List.countP_set wInFlight s.thr t _ ht, hel]
    simp only [wInFlight]
    push_cast
    omega
  · intro st hst
    rcases List.mem_or_eq_of_mem_set hst with hm | rfl
    · refine TOk_mono st ?_ ?_ ?_ ?_ (htok st hm) <;> dsimp only <;> omega
    · show s.ring.next_read_pos + 1 ≤ s.ring.next_read_pos + 1
      omega

/-- A successful read-availability observation preserves the invariant. -/
lemma inv_readyR (cap : Int) (s : RingSys) (t : Nat) (p : Int) (h : SysInv cap s)
    (hg : s.thr.getD t TState.idle = TState.rClaimed p)
    (hav : 1 ≤ s.ring.last_write_pos - p + 1) :
    SysInv cap { s with thr := s.thr.set t (TState.rReady p) } := by
  obtain ⟨hri, hcnt, hcap, htok⟩ := h
  have ht : t < s.thr.length := getD_lt_length _ _ _ (by rw [hg]; simp)
  have hel : s.thr[t] = TState.rClaimed p := by
    rw [← getD_of_lt s.thr t TState.idle ht, hg]
  have hmem : TState.rClaimed p ∈ s.thr := by
    rw [← hel]; exact List.getElem_mem ht
  refine ⟨hri, ?_, hcap, ?_⟩
  · dsimp only
    rw [List.countP_set wInFlight s.thr t _ ht, hel]
    simp only [wInFlight]
    push_cast
    omega
  · intro st hst
    rcases List.mem_or_eq_of_mem_set hst with hm | rfl
    · exact htok st hm
    · exact ⟨htok _ hmem, by dsimp only; omega⟩

/-- A read-commit CAS attempt preserves the invariant. -/
lemma inv_commitR (cap : Int) (s : RingSys) (t : Nat) (p : Int) (h : SysInv cap s)
    (hg : s.thr.getD t TState.idle = TState.rReady p) :
    SysInv cap (attemptCommitR s t p) := by
  obtain ⟨⟨i1, i2, i3, i4⟩, hcnt, hcap, htok⟩ := h
  unfold attemptCommitR
  split_ifs with hcas
  · have ht : t < s.thr.length := getD_lt_length _ _ _ (by rw [hg]; simp)
    have hel : s.thr[t] = TState.rReady p := by
      rw [← getD_of_lt s.thr t TState.idle ht, hg]
    have hmem : TState.rReady p ∈ s.thr := by
      rw [← hel]; exact List.getElem_mem ht
    have h0 := htok _ hmem
    have hpnr : p ≤ s.ring.next_read_pos := h0.1
    have hplw : p ≤ s.ring.last_write_pos := h0.2
    refine ⟨⟨by dsimp only; omega, by dsimp only; omega, by dsimp only; omega,
      by dsimp only; omega⟩, ?_, hcap, ?_⟩
    · dsimp only
      rw [List.countP_set wInFlight s.thr t _ ht]
      rw [hel]
      simp only [wInFlight]
      push_cast
      omega
    · intro st hst
      rcases List.mem_or_eq_of_mem_set hst with hm | rfl
      · refine TOk_mono st ?_ ?_ ?_ ?_ (htok st hm) <;> dsimp only <;> omega
      · trivial
  · exact ⟨⟨i1, i2, i3, i4⟩, hcnt, hcap, htok⟩

/-- Every event preserves the invariant, under either commit discipline. -/
lemma stepEv_inv (wd : Bool) (cap : Int) (s : RingSys) (e : RingEv)
    (h : SysInv cap s) : SysInv cap (stepEv wd s e) := by
  cases e with
  | claimW t =>
    simp only [stepEv]
    split_ifs with ht
    · cases hg : s.thr.getD t TState.idle with
      | idle =>
        exact inv_claimW cap s t h ht (by rw [← getD_of_lt s.thr t TState.idle ht, hg])
      | wClaimed p => exact h
      | wReady p => exact h
      | rClaimed p => exact h
      | rReady p => exact h
    · exact h
  | readyW t =>
    simp only [stepEv]
    cases hg : s.thr.getD t TState.idle with
    | wClaimed p =>
      dsimp only
      split_ifs with hav
      · exact inv_readyW cap s t p h hg hav
      · exact h
    | idle => exact h
    | wReady p => exact h
    | rClaimed p => exact h
    | rReady p => exact h
  | commitW t =>
    simp only [stepEv]
    cases hg : s.thr.getD t TState.idle with
    | wClaimed p =>
      cases wd with
      | true => exact h
      | false => exact inv_commitW cap s t p h (Or.inl hg)
    | wReady p => exact inv_commitW cap s t p h (Or.inr hg)
    | idle => exact h
    | rClaimed p => exact h
    | rReady p => exact h
  | claimR t =>
    simp only [stepEv]
    split_ifs with ht
    · cases hg : s.thr.getD t TState.idle with
      | idle =>
        exact inv_claimR cap s t h ht (by rw [← getD_of_lt s.thr t TState.idle ht, hg])
      | wClaimed p => exact h
      | wReady p => exact h
      | rClaimed p => exact h
      | rReady p => exact h
    · exact h
  | readyR t =>
    simp only [stepEv]
    cases hg : s.thr.getD t TState.idle with
    | rClaimed p =>
      dsimp only
      split_ifs with hav
      · exact inv_readyR cap s t p h hg hav
      · exact h
    | idle => exact h
    | wClaimed p => exact h
    | wReady p => exact h
    | rReady p => exact h
  | commitR t =>
    simp only [stepEv]
    cases hg : s.thr.getD t TState.idle with
    | rReady p => exact inv_commitR cap s t p h hg
    | idle => exact h
    | wClaimed p => exact h
    | wReady p => exact h
    | rClaimed p => exact h

/-- The initial configuration satisfies the invariant. -/
lemma initRingSys_inv (cap : Int) (n : Nat) : SysInv cap (initRingSys cap n) := by
  have h0 : (List.replicate n TState.idle).countP wInFlight = 0 :=
    List.countP_eq_zero.mpr (fun a ha => by
      rw [List.eq_of_mem_replicate ha]; simp [wInFlight])
  refine ⟨⟨le_refl _, le_refl _, le_refl _, le_refl _⟩, ?_, rfl, ?_⟩
  · show (-1 : Int) = -1 + ((List.replicate n TState.idle).countP wInFlight : Int)
    rw [h0]
    norm_num
  · intro st hst
    rw [List.eq_of_mem_replicate hst]
    trivial

/-- The invariant holds after any interleaving. -/
lemma foldl_stepEv_inv (wd : Bool) (cap : Int) :
    ∀ (evs : List RingEv) (s : RingSys), SysInv cap s →
      SysInv cap (evs.foldl (stepEv wd) s) := by
  intro evs
  induction evs with
  | nil => intro s hs; exact hs
  | cons e rest ih => intro s hs; exact ih _ (stepEv_inv wd cap s e hs)

/-- C6 (amended): on a ring initialized by `ntringb_init`, for every
interleaving of ring operations in which a consumer commits only after
observing read availability for its claim (automatic in blocking
`ntringb_begin_read`/`ntringb_commit_read`; the documented discipline for
`poll_commit_read`), and with producer commits either disciplined (`wd=true`)
or not (`wd=false`), at all times
`-1 ≤ last_read_pos ≤ next_read_pos` and
`last_read_pos ≤ last_write_pos ≤ next_write_pos`.  Without the consumer-side
discipline the property fails
(`ntringb_poll_commit_read_breaks_watermark_order`). -/
theorem ntringb_watermark_invariant_disciplined (wd : Bool) (cap : Int)
    (n : Nat) (evs : List RingEv) :
    -1 ≤ (runRing wd cap n evs).ring.last_read_pos ∧
    (runRing wd cap n evs).ring.last_read_pos
      ≤ (runRing wd cap n evs).ring.next_read_pos ∧
    (runRing wd cap n evs).ring.last_read_pos
      ≤ (runRing wd cap n evs).ring.last_write_pos ∧
    (runRing wd cap n evs).ring.last_write_pos
      ≤ (runRing wd cap n evs).ring.next_write_pos :=
  (foldl_stepEv_inv wd cap evs (initRingSys cap n) (initRingSys_inv cap n)).1

/-- The committed write watermark never runs more than the capacity ahead of
the committed read watermark. -/
def LastWBound (s : RingSys) : Prop :=
  s.ring.last_write_pos ≤ s.ring.pow2_buffer_count + s.ring.last_read_pos

/-- Under the blocking producer discipline (`wd = true`) every event preserves
the capacity bound on the committed watermark. -/
lemma stepEv_bound (cap : Int) (s : RingSys) (e : RingEv)
    (hinv : SysInv cap s) (hb : LastWBound s) : LastWBound (stepEv true s e) := by
  obtain ⟨hri, hcnt, hcap, htok⟩ := hinv
  cases e with
  | claimW t =>
    simp only [stepEv]
    split_ifs with ht
    · cases hg : s.thr.getD t TState.idle <;> exact hb
    · exact hb
  | readyW t =>
    simp only [stepEv]
    cases hg : s.thr.getD t TState.idle with
    | wClaimed p =>
      dsimp only
      split_ifs with hav
      · exact hb
      · exact hb
    | idle => exact hb
    | wReady p => exact hb
    | rClaimed p => exact hb
    | rReady p => exact hb
  | commitW t =>
    simp only [stepEv]
    cases hg : s.thr.getD t TState.idle with
    | wReady p =>
      have ht : t < s.thr.length := getD_lt_length _ _ _ (by rw [hg]; simp)
      have hel : s.thr[t] = TState.wReady p := by
        rw [← getD_of_lt s.thr t TState.idle ht, hg]
      have hmem : TState.wReady p ∈ s.thr := by
        rw [← hel]
        exact List.getElem_mem ht
      have h0 := htok _ hmem
      dsimp only
      unfold attemptCommitW
      split_ifs with hcas
      · show p ≤ s.ring.pow2_buffer_count + s.ring.last_read_pos
        exact h0.2
      · exact hb
    | idle => exact hb
    | wClaimed p => exact hb
    | rClaimed p => exact hb
    | rReady p => exact hb
  | claimR t =>
    simp only [stepEv]
    split_ifs with ht
    · cases hg : s.thr.getD t TState.idle <;> exact hb
    · exact hb
  | readyR t =>
    simp only [stepEv]
    cases hg : s.thr.getD t TState.idle with
    | rClaimed p =>
      dsimp only
      split_ifs with hav
      · exact hb
      · exact hb
    | idle => exact hb
    | wClaimed p => exact hb
    | wReady p => exact hb
    | rReady p => exact hb
  | commitR t =>
    simp only [stepEv]
    cases hg : s.thr.getD t TState.idle with
    | rReady p =>
      dsimp only
      unfold attemptCommitR
      split_ifs with hcas
      · show s.ring.last_write_pos ≤ s.ring.pow2_buffer_count + p
        simp only [LastWBound] at hb
        omega
      · exact hb
    | idle => exact hb
    | wClaimed p => exact hb
    | wReady p => exact hb
    | rClaimed p => exact hb

/-- Invariant and capacity bound together, after any interleaving under the
blocking producer discipline. -/
lemma foldl_stepEv_bound (cap : Int) :
    ∀ (evs : List RingEv) (s : RingSys), SysInv cap s → LastWBound s →
      SysInv cap (evs.foldl (stepEv true) s)
        ∧ LastWBound (evs.foldl (stepEv true) s) := by
  intro evs
  induction evs with
  | nil => intro s hs hb; exact ⟨hs, hb⟩
  | cons e rest ih =>
    intro s hs hb
    exact ih _ (stepEv_inv true cap s e hs) (stepEv_bound cap s e hs hb)

/-- C7 (amended): on a ring of capacity at least 1, for every interleaving in
which commits follow an availability observation (the blocking discipline),
the committed watermarks satisfy `last_write_pos - last_read_pos ≤ capacity`;
the eager claim counter satisfies
`next_write_pos - last_write_pos = number of write claims begun and not yet
committed`, so `next_write_pos - last_read_pos` can exceed the capacity, but
only by that number of in-flight claims — as the counterexample
`ntringb_poll_begin_write_exceeds_capacity` shows, the excess is realized by
completed `poll_begin_write` operations (and equally by the eager increment at
the top of blocking `ntringb_begin_write`). -/
theorem ntringb_capacity_bound_disciplined (cap : Int) (n : Nat)
    (evs : List RingEv) (hcap : 1 ≤ cap) :
    (runRing true cap n evs).ring.last_write_pos
        - (runRing true cap n evs).ring.last_read_pos
      ≤ (runRing true cap n evs).ring.pow2_buffer_count ∧
    (runRing true cap n evs).ring.next_write_pos
        - (runRing true cap n evs).ring.last_write_pos
      = ((runRing true cap n evs).thr.countP wInFlight : Int) ∧
    (runRing true cap n evs).ring.next_write_pos
        - (runRing true cap n evs).ring.last_read_pos
      ≤ (runRing true cap n evs).ring.pow2_buffer_count
        + ((runRing true cap n evs).thr.countP wInFlight : Int) := by
  have hb0 : LastWBound (initRingSys cap n) := by
    show (-1 : Int) ≤ cap + -1
    omega
  obtain ⟨⟨hri, hcnt, hcapc, _⟩, hb⟩ :=
    foldl_stepEv_bound cap evs (initRingSys cap n) (initRingSys_inv cap n) hb0
  simp only [LastWBound] at hb
  simp only [runRing]
  refine ⟨by omega, by omega, by omega⟩

/-- C7 witness: one disciplined producer claim and commit on capacity 2. -/
theorem ntringb_capacity_bound_disciplined_witness :
    (runRing true 2 1 [RingEv.claimW 0, RingEv.readyW 0, RingEv.commitW 0]).ring.last_write_pos
        - (runRing true 2 1 [RingEv.claimW 0, RingEv.readyW 0, RingEv.commitW 0]).ring.last_read_pos
      ≤ (runRing true 2 1 [RingEv.claimW 0, RingEv.readyW 0, RingEv.commitW 0]).ring.pow2_buffer_count ∧
    (runRing true 2 1 [RingEv.claimW 0, RingEv.readyW 0, RingEv.commitW 0]).ring.next_write_pos
        - (runRing true 2 1 [RingEv.claimW 0, RingEv.readyW 0, RingEv.commitW 0]).ring.last_write_pos
      = ((runRing true 2 1 [RingEv.claimW 0, RingEv.readyW 0, RingEv.commitW 0]).thr.countP wInFlight : Int) ∧
    (runRing true 2 1 [RingEv.claimW 0, RingEv.readyW 0, RingEv.commitW 0]).ring.next_write_pos
        - (runRing true 2 1 [RingEv.claimW 0, RingEv.readyW 0, RingEv.commitW 0]).ring.last_read_pos
      ≤ (runRing true 2 1 [RingEv.claimW 0, RingEv.readyW 0, RingEv.commitW 0]).ring.pow2_buffer_count
        + ((runRing true 2 1 [RingEv.claimW 0, RingEv.readyW 0, RingEv.commitW 0]).thr.countP wInFlight : Int) :=
  ntringb_capacity_bound_disciplined 2 1
    [RingEv.claimW 0, RingEv.readyW 0, RingEv.commitW 0] (by norm_num)

/-! ## Concurrent ARC cell model (C8)

Each event is one atomic cell access of `ntarc_atomic_store` /
`ntarc_atomic_load`: `startStore` performs the local `ntarc_clone` of the
operand (no cell access), `beginOk` is a successful iteration of the
`ntarc_atomic_begin` loop (reading a non-BUSY pair and CASing it to the BUSY
sentinel in one linearized step; an iteration that observes BUSY or loses the
CAS changes nothing and is omitted), `stDropRef` is the
`ntarc_drop_reference` on the displaced pair, `stCommit` / `ldCommit` are the
single CAS of `ntarc_atomic_commit`, `stDropData` is the trailing
`ntarc_drop_data`, and `ldClone` is the `ntarc_clone` that produces the
load's result (logged on completion of the load at `ldCommit`). -/

/-- Phase of one thread inside a store or load on the shared cell. -/
inductive ArcPhase where
  | idle
  | stClone (v : NTARC)
  | stAcq (v : NTARC) (old : NTARC)
  | stDropped (v : NTARC) (old : NTARC) (rc : Int)
  | stFinal (old : NTARC) (rc : Int)
  | ldBegin
  | ldAcq (old : NTARC)
  | ldCloned (old : NTARC)
  deriving DecidableEq, Repr

/-- One atomic event of the ARC cell protocol. -/
inductive ArcEv where
  | startStore (t : Nat) (v : NTARC)
  | beginOk (t : Nat)
  | stDropRef (t : Nat)
  | stCommit (t : Nat)
  | stDropData (t : Nat)
  | startLoad (t : Nat)
  | ldClone (t : Nat)
  | ldCommit (t : Nat)
  deriving DecidableEq, Repr

/-- Global configuration: the shared cell, the control-block heap and
destructor log, the thread phases, and the results delivered by completed
loads. -/
structure ArcSys where
  cell : NTARC
  arcSt : ArcState
  thr : List ArcPhase
  loads : List NTARC

/-- Small-step semantics of one event. -/
def arcStep (s : ArcSys) (e : ArcEv) : ArcSys :=
  match e with
  | ArcEv.startStore t v =>
    if t < s.thr.length then
      match s.thr.getD t ArcPhase.idle with
      | ArcPhase.idle =>
        let c := ntarc_clone v s.arcSt
        { s with arcSt := c.1, thr := s.thr.set t (ArcPhase.stClone c.2) }
      | _ => s
    else s
  | ArcEv.beginOk t =>
    match s.thr.getD t ArcPhase.idle with
    | ArcPhase.stClone v =>
      if ntarc_is_equal s.cell NTARC_BUSY then s
      else { s with cell := NTARC_BUSY
                    thr := s.thr.set t (ArcPhase.stAcq v s.cell) }
    | ArcPhase.ldBegin =>
      if ntarc_is_equal s.cell NTARC_BUSY then s
      else { s with cell := NTARC_BUSY
                    thr := s.thr.set t (ArcPhase.ldAcq s.cell) }
    | _ => s
  | ArcEv.stDropRef t =>
    match s.thr.getD t ArcPhase.idle with
    | ArcPhase.stAcq v old =>
      let d := ntarc_drop_reference old s.arcSt
      { s with arcSt := d.1, thr := s.thr.set t (ArcPhase.stDropped v old d.2) }
    | _ => s
  | ArcEv.stCommit t =>
    match s.thr.getD t ArcPhase.idle with
    | ArcPhase.stDropped v old rc =>
      let cm := ntarc_atomic_commit s.cell v
      { s with cell := cm.1, thr := s.thr.set t (ArcPhase.stFinal old rc) }
    | _ => s
  | ArcEv.stDropData t =>
    match s.thr.getD t ArcPhase.idle with
    | ArcPhase.stFinal old rc =>
      { s with arcSt := ntarc_drop_data old rc s.arcSt
               thr := s.thr.set t ArcPhase.idle }
    | _ => s
  | ArcEv.startLoad t =>
    if t < s.thr.length then
      match s.thr.getD t ArcPhase.idle with
      | ArcPhase.idle => { s with thr := s.thr.set t ArcPhase.ldBegin }
      | _ => s
    else s
  | ArcEv.ldClone t =>
    match s.thr.getD t ArcPhase.idle with
    | ArcPhase.ldAcq old =>
      let c := ntarc_clone old s.arcSt
      { s with arcSt := c.1, thr := s.thr.set t (ArcPhase.ldCloned c.2) }
    | _ => s
  | ArcEv.ldCommit t =>
    match s.thr.getD t ArcPhase.idle with
    | ArcPhase.ldCloned old =>
      let cm := ntarc_atomic_commit s.cell old
      { s with cell := cm.1, thr := s.thr.set t ArcPhase.idle
               loads := s.loads ++ [old] }
    | _ => s

/-- Initial configuration: the given cell contents, a fresh state, `n` idle
threads, no completed loads. -/
def initArcSys (n : Nat) (cell0 : NTARC) : ArcSys :=
  { cell := cell0, arcSt := arcState0
    thr := List.replicate n ArcPhase.idle, loads := [] }

/-- Run an interleaving from the initial configuration. -/
def runArc (n : Nat) (cell0 : NTARC) (evs : List ArcEv) : ArcSys :=
  evs.foldl arcStep (initArcSys n cell0)

/-- Is this thread between a successful `ntarc_atomic_begin` and the matching
`ntarc_atomic_commit` (the window in which the cell holds the sentinel)? -/
def phInCS : ArcPhase → Bool
  | ArcPhase.stAcq _ _ => true
  | ArcPhase.stDropped _ _ _ => true
  | ArcPhase.ldAcq _ => true
  | ArcPhase.ldCloned _ => true
  | _ => false

/-- Values carried by a phase are sane: stored operands are not the sentinel,
and every displaced pair observed by a successful begin has a non-sentinel
control-block pointer (the begin guard). -/
def PhOk : ArcPhase → Prop
  | ArcPhase.stClone v => v ≠ NTARC_BUSY
  | ArcPhase.stAcq v old => v ≠ NTARC_BUSY ∧ old.p_control_block ≠ 1
  | ArcPhase.stDropped v old _ => v ≠ NTARC_BUSY ∧ old.p_control_block ≠ 1
  | ArcPhase.stFinal old _ => old.p_control_block ≠ 1
  | ArcPhase.ldAcq old => old.p_control_block ≠ 1
  | ArcPhase.ldCloned old => old.p_control_block ≠ 1
  | _ => True

/-- Per-event caller obligation: a stored operand is never the raw sentinel
pair (it is either null or refers to a genuine control block, whose address
is never 1). -/
def arcEvOk : ArcEv → Prop
  | ArcEv.startStore _ v => v ≠ NTARC_BUSY
  | _ => True

/-- Inductive invariant of the cell protocol: all phases carry sane values,
the cell holds the sentinel exactly when exactly one thread is inside its
critical section, and every delivered load has a non-sentinel control-block
pointer. -/
def ArcInv (s : ArcSys) : Prop :=
  (∀ ph ∈ s.thr, PhOk ph) ∧
  s.thr.countP phInCS = (if s.cell = NTARC_BUSY then 1 else 0) ∧
  (∀ r ∈ s.loads, r.p_control_block ≠ 1)

/-- If some thread is inside its critical section, the cell holds the
sentinel. -/
lemma cell_busy_of_inCS (s : ArcSys)
    (hcnt : s.thr.countP phInCS = (if s.cell = NTARC_BUSY then 1 else 0))
    (x : ArcPhase) (hx : x ∈ s.thr) (hcs : phInCS x = true) :
    s.cell = NTARC_BUSY := by
  have hpos : 0 < s.thr.countP phInCS := List.countP_pos.mpr ⟨x, hx, hcs⟩
  by_contra hne
  rw [if_neg hne] at hcnt
  omega

/-- Every event of the cell protocol preserves the invariant, provided stored
operands are never the raw sentinel pair. -/
lemma arcStep_inv (s : ArcSys) (e : ArcEv) (hinv : ArcInv s) (he : arcEvOk e) :
    ArcInv (arcStep s e) := by
  obtain ⟨hph, hcnt, hld⟩ := hinv
  cases e with
  | startStore t v =>
    simp only [arcStep]
    split_ifs with ht
    · cases hg : s.thr.getD t ArcPhase.idle with
      | idle =>
        have hel : s.thr[t] = ArcPhase.idle := by
          rw [← getD_of_lt s.thr t ArcPhase.idle ht, hg]
        refine ⟨?_, ?_, hld⟩
        · intro ph hmem
          rcases List.mem_or_eq_of_mem_set hmem with hm | rfl
          · exact hph ph hm
          · exact he
        · dsimp only
          rw [List.countP_set phInCS s.thr t _ ht, hel]
          simp [phInCS]
          exact hcnt
      | stClone v0 => exact ⟨hph, hcnt, hld⟩
      | stAcq v0 o0 => exact ⟨hph, hcnt, hld⟩
      | stDropped v0 o0 rc0 => exact ⟨hph, hcnt, hld⟩
      | stFinal o0 rc0 => exact ⟨hph, hcnt, hld⟩
      | ldBegin => exact ⟨hph, hcnt, hld⟩
      | ldAcq o0 => exact ⟨hph, hcnt, hld⟩
      | ldCloned o0 => exact ⟨hph, hcnt, hld⟩
    · exact ⟨hph, hcnt, hld⟩
  | beginOk t =>
    simp only [arcStep]
    cases hg : s.thr.getD t ArcPhase.idle with
    | stClone v =>
      dsimp only
      split_ifs with hbusy
      · exact ⟨hph, hcnt, hld⟩
      · have hcb : s.cell.p_control_block ≠ 1 := by
          simpa [ntarc_is_equal, NTARC_BUSY] using hbusy
        have hcellne : s.cell ≠ NTARC_BUSY := fun hh => hcb (by rw [hh]; rfl)
        have ht : t < s.thr.length := getD_lt_length _ _ _ (by rw [hg]; simp)
        have hel : s.thr[t] = ArcPhase.stClone v := by
          rw [← getD_of_lt s.thr t ArcPhase.idle ht, hg]
        have hmem : ArcPhase.stClone v ∈ s.thr := by
          rw [← hel]; exact List.getElem_mem ht
        have hv : v ≠ NTARC_BUSY := hph _ hmem
        refine ⟨?_, ?_, hld⟩
        · intro ph hmemb
          rcases List.mem_or_eq_of_mem_set hmemb with hm | rfl
          · exact hph ph hm
          · exact ⟨hv, hcb⟩
        · dsimp only
          rw [List.countP_set phInCS s.thr t _ ht, hel]
          rw [if_neg hcellne] at hcnt
          simp [phInCS, hcnt]
    | ldBegin =>
      dsimp only
      split_ifs with hbusy
      · exact ⟨hph, hcnt, hld⟩
      · have hcb : s.cell.p_control_block ≠ 1 := by
          simpa [ntarc_is_equal, NTARC_BUSY] using hbusy
        have hcellne : s.cell ≠ NTARC_BUSY := fun hh => hcb (by rw [hh]; rfl)
        have ht : t < s.thr.length := getD_lt_length _ _ _ (by rw [hg]; simp)
        have hel : s.thr[t] = ArcPhase.ldBegin := by
          rw [← getD_of_lt s.thr t ArcPhase.idle ht, hg]
        refine ⟨?_, ?_, hld⟩
        · intro ph hmemb
          rcases List.mem_or_eq_of_mem_set hmemb with hm | rfl
          · exact hph ph hm
          · exact hcb
        · dsimp only
          rw [List.countP_set phInCS s.thr t _ ht, hel]
          rw [if_neg hcellne] at hcnt
          simp [phInCS, hcnt]
    | idle => exact ⟨hph, hcnt, hld⟩
    | stAcq v0 o0 => exact ⟨hph, hcnt, hld⟩
    | stDropped v0 o0 rc0 => exact ⟨hph, hcnt, hld⟩
    | stFinal o0 rc0 => exact ⟨hph, hcnt, hld⟩
    | ldAcq o0 => exact ⟨hph, hcnt, hld⟩
    | ldCloned o0 => exact ⟨hph, hcnt, hld⟩
  | stDropRef t =>
    simp only [arcStep]
    cases hg : s.thr.getD t ArcPhase.idle with
    | stAcq v old =>
      have ht : t < s.thr.length := getD_lt_length _ _ _ (by rw [hg]; simp)
      have hel : s.thr[t] = ArcPhase.stAcq v old := by
        rw [← getD_of_lt s.thr t ArcPhase.idle ht, hg]
      have hmem : ArcPhase.stAcq v old ∈ s.thr := by
        rw [← hel]; exact List.getElem_mem ht
      have hpo := hph _ hmem
      have hbusy : s.cell = NTARC_BUSY := cell_busy_of_inCS s hcnt _ hmem rfl
      refine ⟨?_, ?_, hld⟩
      · intro ph hmemb
        rcases List.mem_or_eq_of_mem_set hmemb with hm | rfl
        · exact hph ph hm
        · exact hpo
      · dsimp only
        rw [List.countP_set phInCS s.thr t _ ht, hel]
        rw [if_pos hbusy] at hcnt
        simp [phInCS, hcnt, hbusy]
    | idle => exact ⟨hph, hcnt, hld⟩
    | stClone v0 => exact ⟨hph, hcnt, hld⟩
    | stDropped v0 o0 rc0 => exact ⟨hph, hcnt, hld⟩
    | stFinal o0 rc0 => exact ⟨hph, hcnt, hld⟩
    | ldBegin => exact ⟨hph, hcnt, hld⟩
    | ldAcq o0 => exact ⟨hph, hcnt, hld⟩
    | ldCloned o0 => exact ⟨hph, hcnt, hld⟩
  | stCommit t =>
    simp only [arcStep]
    cases hg : s.thr.getD t ArcPhase.idle with
    | stDropped v old rc =>
      have ht : t < s.thr.length := getD_lt_length _ _ _ (by rw [hg]; simp)
      have hel : s.thr[t] = ArcPhase.stDropped v old rc := by
        rw [← getD_of_lt s.thr t ArcPhase.idle ht, hg]
      have hmem : ArcPhase.stDropped v old rc ∈ s.thr := by
        rw [← hel]; exact List.getElem_mem ht
      have hpo := hph _ hmem
      have hbusy : s.cell = NTARC_BUSY := cell_busy_of_inCS s hcnt _ hmem rfl
      have hcm : ntarc_atomic_commit s.cell v = (v, true) := by
        rw [hbusy]
        simp [ntarc_atomic_commit]
      refine ⟨?_, ?_, hld⟩
      · intro ph hmemb
        rcases List.mem_or_eq_of_mem_set hmemb with hm | rfl
        · exact hph ph hm
        · exact hpo.2
      · dsimp only
        rw [List.countP_set phInCS s.thr t _ ht, hel, hcm]
        rw [if_pos hbusy] at hcnt
        simp [phInCS, hcnt, if_neg hpo.1]
    | idle => exact ⟨hph, hcnt, hld⟩
    | stClone v0 => exact ⟨hph, hcnt, hld⟩
    | stAcq v0 o0 => exact ⟨hph, hcnt, hld⟩
    | stFinal o0 rc0 => exact ⟨hph, hcnt, hld⟩
    | ldBegin => exact ⟨hph, hcnt, hld⟩
    | ldAcq o0 => exact ⟨hph, hcnt, hld⟩
    | ldCloned o0 => exact ⟨hph, hcnt, hld⟩
  | stDropData t =>
    simp only [arcStep]
    cases hg : s.thr.getD t ArcPhase.idle with
    | stFinal old rc =>
      have ht : t < s.thr.length := getD_lt_length _ _ _ (by rw [hg]; simp)
      have hel : s.thr[t] = ArcPhase.stFinal old rc := by
        rw [← getD_of_lt s.thr t ArcPhase.idle ht, hg]
      refine ⟨?_, ?_, hld⟩
      · intro ph hmemb
        rcases List.mem_or_eq_of_mem_set hmemb with hm | rfl
        · exact hph ph hm
        · trivial
      · dsimp only
        rw [List.countP_set phInCS s.thr t _ ht, hel]
        simp [phInCS]
        exact hcnt
    | idle => exact ⟨hph, hcnt, hld⟩
    | stClone v0 => exact ⟨hph, hcnt, hld⟩
    | stAcq v0 o0 => exact ⟨hph, hcnt, hld⟩
    | stDropped v0 o0 rc0 => exact ⟨hph, hcnt, hld⟩
    | ldBegin => exact ⟨hph, hcnt, hld⟩
    | ldAcq o0 => exact ⟨hph, hcnt, hld⟩
    | ldCloned o0 => exact ⟨hph, hcnt, hld⟩
  | startLoad t =>
    simp only [arcStep]
    split_ifs with ht
    · cases hg : s.thr.getD t ArcPhase.idle with
      | idle =>
        have hel : s.thr[t] = ArcPhase.idle := by
          rw [← getD_of_lt s.thr t ArcPhase.idle ht, hg]
        refine ⟨?_, ?_, hld⟩
        · intro ph hmemb
          rcases List.mem_or_eq_of_mem_set hmemb with hm | rfl
          · exact hph ph hm
          · trivial
        · dsimp only
          rw [List.countP_set phInCS s.thr t _ ht, hel]
          simp [phInCS]
          exact hcnt
      | stClone v0 => exact ⟨hph, hcnt, hld⟩
      | stAcq v0 o0 => exact ⟨hph, hcnt, hld⟩
      | stDropped v0 o0 rc0 => exact ⟨hph, hcnt, hld⟩
      | stFinal o0 rc0 => exact ⟨hph, hcnt, hld⟩
      | ldBegin => exact ⟨hph, hcnt, hld⟩
      | ldAcq o0 => exact ⟨hph, hcnt, hld⟩
      | ldCloned o0 => exact ⟨hph, hcnt, hld⟩
    · exact ⟨hph, hcnt, hld⟩
  | ldClone t =>
    simp only [arcStep]
    cases hg : s.thr.getD t ArcPhase.idle with
    | ldAcq old =>
      have ht : t < s.thr.length := getD_lt_length _ _ _ (by rw [hg]; simp)
      have hel : s.thr[t] = ArcPhase.ldAcq old := by
        rw [← getD_of_lt s.thr t ArcPhase.idle ht, hg]
      have hmem : ArcPhase.ldAcq old ∈ s.thr := by
        rw [← hel]; exact List.getElem_mem ht
      have hopo := hph _ hmem
      refine ⟨?_, ?_, hld⟩
      · intro ph hmemb
        rcases List.mem_or_eq_of_mem_set hmemb with hm | rfl
        · exact hph ph hm
        · exact hopo
      · dsimp only
        rw [List.countP_set phInCS s.thr t _ ht, hel]
        rw [← hcnt]
        have hpos : 0 < s.thr.countP phInCS :=
          List.countP_pos.mpr ⟨_, hmem, rfl⟩
        simp [phInCS]
        omega
    | idle => exact ⟨hph, hcnt, hld⟩
    | stClone v0 => exact ⟨hph, hcnt, hld⟩
    | stAcq v0 o0 => exact ⟨hph, hcnt, hld⟩
    | stDropped v0 o0 rc0 => exact ⟨hph, hcnt, hld⟩
    | stFinal o0 rc0 => exact ⟨hph, hcnt, hld⟩
    | ldBegin => exact ⟨hph, hcnt, hld⟩
    | ldCloned o0 => exact ⟨hph, hcnt, hld⟩
  | ldCommit t =>
    simp only [arcStep]
    cases hg : s.thr.getD t ArcPhase.idle with
    | ldCloned old =>
      have ht : t < s.thr.length := getD_lt_length _ _ _ (by rw [hg]; simp)
      have hel : s.thr[t] = ArcPhase.ldCloned old := by
        rw [← getD_of_lt s.thr t ArcPhase.idle ht, hg]
      have hmem : ArcPhase.ldCloned old ∈ s.thr := by
        rw [← hel]; exact List.getElem_mem ht
      have hopo := hph _ hmem
      have holdne : old ≠ NTARC_BUSY := fun hh => hopo (by rw [hh]; rfl)
      have hbusy : s.cell = NTARC_BUSY := cell_busy_of_inCS s hcnt _ hmem rfl
      have hcm : ntarc_atomic_commit s.cell old = (old, true) := by
        rw [hbusy]
        simp [ntarc_atomic_commit]
      refine ⟨?_, ?_, ?_⟩
      · intro ph hmemb
        rcases List.mem_or_eq_of_mem_set hmemb with hm | rfl
        · exact hph ph hm
        · trivial
      · dsimp only
        rw [List.countP_set phInCS s.thr t _ ht, hel, hcm]
        rw [if_pos hbusy] at hcnt
        simp [phInCS, hcnt, if_neg holdne]
      · intro r hr
        dsimp only at hr
        rcases List.mem_append.mp hr with hm | hm
        · exact hld r hm
        · rw [List.mem_singleton.mp hm]
          exact hopo
    | idle => exact ⟨hph, hcnt, hld⟩
    | stClone v0 => exact ⟨hph, hcnt, hld⟩
    | stAcq v0 o0 => exact ⟨hph, hcnt, hld⟩
    | stDropped v0 o0 rc0 => exact ⟨hph, hcnt, hld⟩
    | stFinal o0 rc0 => exact ⟨hph, hcnt, hld⟩
    | ldBegin => exact ⟨hph, hcnt, hld⟩
    | ldAcq o0 => exact ⟨hph, hcnt, hld⟩

/-- The initial configuration satisfies the invariant whenever the initial
cell contents are not the sentinel. -/
lemma initArcSys_inv (n : Nat) (cell0 : NTARC) (h0 : cell0 ≠ NTARC_BUSY) :
    ArcInv (initArcSys n cell0) := by
  refine ⟨?_, ?_, ?_⟩
  · intro ph hmem
    rw [List.eq_of_mem_replicate hmem]
    trivial
  · show (List.replicate n ArcPhase.idle).countP phInCS
        = if cell0 = NTARC_BUSY then 1 else 0
    rw [if_neg h0]
    exact List.countP_eq_zero.mpr (fun a ha => by
      rw [List.eq_of_mem_replicate ha]; simp [phInCS])
  · intro r hr
    cases hr

/-- The invariant holds after any interleaving of sane events. -/
lemma foldl_arcStep_inv :
    ∀ (evs : List ArcEv) (s : ArcSys), ArcInv s → (∀ e ∈ evs, arcEvOk e) →
      ArcInv (evs.foldl arcStep s) := by
  intro evs
  induction evs with
  | nil => intro s hs _; exact hs
  | cons e rest ih =>
    intro s hs he
    exact ih _ (arcStep_inv s e hs (he e (List.mem_cons_self e rest)))
      (fun e1 h1 => he e1 (List.mem_cons_of_mem e h1))

/-- C8: on a cell that does not start as the sentinel, for every interleaving
of atomic stores and loads whose stored operands are genuine ARC values
(never the raw sentinel pair), no completed `ntarc_atomic_load` ever delivers
the BUSY pair, the cell never holds the BUSY pair while no thread is between
`ntarc_atomic_begin` and `ntarc_atomic_commit`, and whenever the cell does
hold BUSY exactly one thread is inside that window. -/
theorem ntarc_busy_sentinel_transient (n : Nat) (cell0 : NTARC)
    (evs : List ArcEv) (h0 : cell0 ≠ NTARC_BUSY)
    (hs : ∀ e ∈ evs, arcEvOk e) :
    (∀ r ∈ (runArc n cell0 evs).loads, r ≠ NTARC_BUSY) ∧
    ((runArc n cell0 evs).thr.countP phInCS = 0 →
      (runArc n cell0 evs).cell ≠ NTARC_BUSY) ∧
    ((runArc n cell0 evs).cell = NTARC_BUSY →
      (runArc n cell0 evs).thr.countP phInCS = 1) := by
  simp only [runArc]
  obtain ⟨hph, hcnt, hld⟩ :=
    foldl_arcStep_inv evs (initArcSys n cell0) (initArcSys_inv n cell0 h0) hs
  refine ⟨?_, ?_, ?_⟩
  · intro r hr hbad
    exact hld r hr (by rw [hbad]; rfl)
  · intro hz hbusy
    rw [if_pos hbusy] at hcnt
    omega
  · intro hbusy
    rw [if_pos hbusy] at hcnt
    exact hcnt

/-- A concrete interleaving for the C8 witness: one full store of the value
(100, 200) followed by one full load, on two threads. -/
def c8evs : List ArcEv :=
  [ArcEv.startStore 0 ⟨100, 200⟩, ArcEv.beginOk 0, ArcEv.stDropRef 0,
   ArcEv.stCommit 0, ArcEv.stDropData 0, ArcEv.startLoad 1, ArcEv.beginOk 1,
   ArcEv.ldClone 1, ArcEv.ldCommit 1]

/-- C8 witness: after the concrete store-then-load interleaving no thread is
in its critical section and the cell does not hold the sentinel. -/
theorem ntarc_busy_sentinel_transient_witness :
    (runArc 2 ⟨0, 0⟩ c8evs).cell ≠ NTARC_BUSY :=
  (ntarc_busy_sentinel_transient 2 ⟨0, 0⟩ c8evs (by decide)
    (by intro e he; fin_cases he <;> simp [arcEvOk, NTARC_BUSY])).2.1
    (by decide)
